import Mathlib

/-!
Verification of the dependency-aware batch scheduler implemented in
claude_parallel_executor.py (class ParallelTaskExecutor).

The Python code is shallowly embedded as executable Lean definitions:

* ParallelTask / TaskResult mirror the two dataclasses field by field
  (float execution times are modelled as Nat clock readings supplied by the
  environment, since the scheduler only stores them).
* resolveAux models the while-loop of _resolve_dependencies with an explicit
  fuel argument counting loop iterations; resolveAux returns none exactly when
  the loop has not finished within the given number of iterations, and it
  also returns how many times the cycle-breaking warning branch fired
  (the console.print warning on line 171 of the source).
  resolveDependencies runs the loop with |tasks| iterations of fuel, the
  bound the specification claims is always sufficient.
* sortDesc is the stable descending-priority insertion sort; Python's
  list.sort(key=priority, reverse=True) is guaranteed stable with ties in
  input order, and a stable sort of a list under a total priority preorder
  is unique, so sortDesc computes exactly the list the Python sort produces.
* The external Claude-SDK executor capability (the query call) is opaque to
  the scheduler, so its behaviour is a parameter: an ExecBehavior per task id
  (the stream of text chunks it yields, or the exception it raises), wrapped
  in TaskRun to account for exceptions that escape to asyncio.gather.
* The per-batch asyncio.Semaphore concurrency governor is modelled as a
  small-step transition system (BatchStep) whose start transition is enabled
  only while fewer than max_parallel tasks hold a permit.
-/

/-- Embeds the ParallelTask dataclass (claude_parallel_executor.py lines
34-51).  __post_init__ replaces a missing dependency list by []; the Lean
default value plays that role.  The uuid fallback for a missing id is outside
the scheduler's algorithmic content. -/
structure ParallelTask where
  id : String
  prompt : String := ""
  description : String := ""
  priority : Int := 1
  max_turns : Nat := 5
  timeout : Option Nat := none
  dependencies : List String := []
  tools_allowed : Option (List String) := none
  tools_blocked : Option (List String) := none
deriving DecidableEq

/-- Embeds the TaskResult dataclass (lines 54-62). -/
structure TaskResult where
  task_id : String
  success : Bool
  result : String
  error : Option String := none
  execution_time : Nat := 0
  tokens_used : Option Nat := none
deriving DecidableEq

/-- Embeds the executor construction (lines 68-69): the requested
max_parallel is silently clamped with min(max_parallel, 10), the Claude Code
concurrency ceiling. -/
structure ParallelTaskExecutor where
  max_parallel : Nat

/-- ParallelTaskExecutor.__init__ : self.max_parallel = min(max_parallel, 10). -/
def ParallelTaskExecutor.init (max_parallel : Nat) : ParallelTaskExecutor :=
  { max_parallel := min max_parallel 10 }

/-- Insert a task into a descending-priority list, after all tasks of
greater or equal priority: the insertion step of the unique stable sort
computed by ready_tasks.sort(key=lambda x: x.priority, reverse=True)
(line 175). -/
def insertDesc (t : ParallelTask) : List ParallelTask → List ParallelTask
  | [] => [t]
  | u :: us => if u.priority > t.priority then u :: insertDesc t us else t :: u :: us

/-- Stable descending-priority sort (line 175). -/
def sortDesc (l : List ParallelTask) : List ParallelTask := l.foldr insertDesc []

/-- The ready set of the resolver loop (lines 162-166): tasks not yet
completed all of whose dependencies are completed. -/
def naturalReady (tasks : List ParallelTask) (completed : List String) : List ParallelTask :=
  tasks.filter (fun t => decide (t.id ∉ completed) && decide (∀ d ∈ t.dependencies, d ∈ completed))

/-- The remaining tasks used by the cycle-breaking branch (line 170). -/
def unplaced (tasks : List ParallelTask) (completed : List String) : List ParallelTask :=
  tasks.filter (fun t => decide (t.id ∉ completed))

/-- completed.update(task.id for task in ready_tasks) (line 177): the
completed set is modelled as a duplicate-free list in insertion order. -/
def addIds (completed : List String) (batch : List ParallelTask) : List String :=
  batch.foldl (fun c t => if t.id ∈ c then c else c ++ [t.id]) completed

/-- The batch emitted by one loop iteration (lines 162-176): the ready set,
falling back to all remaining tasks when it is empty, sorted by descending
priority. -/
def nextBatch (tasks : List ParallelTask) (completed : List String) : List ParallelTask :=
  sortDesc (if (naturalReady tasks completed).isEmpty then unplaced tasks completed
            else naturalReady tasks completed)

/-- The while-loop of _resolve_dependencies (lines 154-179), with fuel
counting the loop iterations still allowed.  The result pairs the batches
with the number of times the circular-dependency warning (line 171) was
printed; none means the loop did not finish within the given iterations.
The loop guard compares the size of the completed id set with len(tasks). -/
def resolveAux (tasks : List ParallelTask) : Nat → List String → Option (List (List ParallelTask) × Nat)
  | 0, completed =>
      if completed.length < tasks.length then none else some ([], 0)
  | fuel + 1, completed =>
      if completed.length < tasks.length then
        match resolveAux tasks fuel (addIds completed (nextBatch tasks completed)) with
        | none => none
        | some (bs, w) =>
            some (nextBatch tasks completed :: bs,
              (if (naturalReady tasks completed).isEmpty then 1 else 0) + w)
      else some ([], 0)

/-- _resolve_dependencies, granted the |tasks| loop iterations the
specification states always suffice. -/
def resolveDependencies (tasks : List ParallelTask) : Option (List (List ParallelTask) × Nat) :=
  resolveAux tasks tasks.length []

section SortLemmas

theorem insertDesc_perm (t : ParallelTask) (l : List ParallelTask) :
    (insertDesc t l).Perm (t :: l) := by
  induction l with
  | nil => simp [insertDesc]
  | cons u us ih =>
    simp only [insertDesc]
    split
    · exact (ih.cons u).trans (List.Perm.swap t u us)
    · exact List.Perm.refl _

theorem sortDesc_perm (l : List ParallelTask) : (sortDesc l).Perm l := by
  induction l with
  | nil => simp [sortDesc]
  | cons t ts ih => exact (insertDesc_perm t (sortDesc ts)).trans (ih.cons t)

theorem mem_sortDesc {x : ParallelTask} {l : List ParallelTask} :
    x ∈ sortDesc l ↔ x ∈ l :=
  (sortDesc_perm l).mem_iff

theorem insertDesc_pairwise (t : ParallelTask) {l : List ParallelTask}
    (h : l.Pairwise (fun a b => b.priority ≤ a.priority)) :
    (insertDesc t l).Pairwise (fun a b => b.priority ≤ a.priority) := by
  induction l with
  | nil => simp [insertDesc]
  | cons u us ih =>
    rcases List.pairwise_cons.mp h with ⟨hu, hus⟩
    by_cases hgt : u.priority > t.priority
    · simp only [insertDesc, if_pos hgt]
      refine List.pairwise_cons.mpr ⟨?_, ih hus⟩
      intro x hx
      rcases List.mem_cons.mp ((insertDesc_perm t us).mem_iff.mp hx) with hx | hx
      · subst hx; omega
      · exact hu x hx
    · simp only [insertDesc, if_neg hgt]
      refine List.pairwise_cons.mpr ⟨?_, h⟩
      intro x hx
      rcases List.mem_cons.mp hx with hx | hx
      · subst hx; omega
      · have := hu x hx; omega

theorem sortDesc_pairwise (l : List ParallelTask) :
    (sortDesc l).Pairwise (fun a b => b.priority ≤ a.priority) := by
  induction l with
  | nil => simp [sortDesc]
  | cons t ts ih => exact insertDesc_pairwise t ih

theorem filter_insertDesc (t : ParallelTask) (l : List ParallelTask) (p : Int) :
    (insertDesc t l).filter (fun u => decide (u.priority = p)) =
      if t.priority = p then t :: l.filter (fun u => decide (u.priority = p))
      else l.filter (fun u => decide (u.priority = p)) := by
  induction l with
  | nil => by_cases htp : t.priority = p <;> simp [insertDesc, htp]
  | cons u us ih =>
    by_cases hgt : u.priority > t.priority
    · have hup : t.priority = p → ¬ (u.priority = p) := by omega
      simp only [insertDesc, if_pos hgt, List.filter_cons]
      by_cases htp : t.priority = p
      · simp [htp, hup htp, ih]
      · by_cases hupp : u.priority = p <;> simp [htp, hupp, ih]
    · simp only [insertDesc, if_neg hgt, List.filter_cons]
      by_cases htp : t.priority = p <;> simp [htp]

theorem sortDesc_filter_priority (l : List ParallelTask) (p : Int) :
    (sortDesc l).filter (fun u => decide (u.priority = p)) =
      l.filter (fun u => decide (u.priority = p)) := by
  induction l with
  | nil => simp [sortDesc]
  | cons t ts ih =>
    have : sortDesc (t :: ts) = insertDesc t (sortDesc ts) := rfl
    rw [this, filter_insertDesc]
    by_cases htp : t.priority = p <;> simp [htp, List.filter_cons, ih]

end SortLemmas

section AddIdsLemmas

theorem addIds_nil (completed : List String) : addIds completed [] = completed := rfl

theorem addIds_cons (completed : List String) (t : ParallelTask) (ts : List ParallelTask) :
    addIds completed (t :: ts) =
      addIds (if t.id ∈ completed then completed else completed ++ [t.id]) ts := rfl

theorem mem_addIds (completed : List String) (batch : List ParallelTask) (i : String) :
    i ∈ addIds completed batch ↔ i ∈ completed ∨ ∃ t ∈ batch, t.id = i := by
  induction batch generalizing completed with
  | nil => simp [addIds]
  | cons t ts ih =>
    rw [addIds_cons, ih]
    by_cases h : t.id ∈ completed
    · simp only [if_pos h, List.mem_cons]
      constructor
      · rintro (hi | hi)
        · exact Or.inl hi
        · exact Or.inr (by simpa using Or.inr hi)
      · rintro (hi | ⟨u, hu, hui⟩)
        · exact Or.inl hi
        · rcases hu with hu | hu
          · subst hu; exact Or.inl (hui ▸ h)
          · exact Or.inr ⟨u, hu, hui⟩
    · simp only [if_neg h, List.mem_append, List.mem_singleton]
      constructor
      · rintro ((hi | hi) | hi)
        · exact Or.inl hi
        · exact Or.inr ⟨t, List.mem_cons_self t ts, hi.symm⟩
        · rcases hi with ⟨u, hu, hui⟩
          exact Or.inr ⟨u, List.mem_cons_of_mem t hu, hui⟩
      · rintro (hi | ⟨u, hu, hui⟩)
        · exact Or.inl (Or.inl hi)
        · rcases List.mem_cons.mp hu with hu | hu
          · subst hu; exact Or.inl (Or.inr hui.symm)
          · exact Or.inr ⟨u, hu, hui⟩

theorem nodup_addIds {completed : List String} (batch : List ParallelTask)
    (hc : completed.Nodup) : (addIds completed batch).Nodup := by
  induction batch generalizing completed with
  | nil => exact hc
  | cons t ts ih =>
    rw [addIds_cons]
    by_cases h : t.id ∈ completed
    · simpa [if_pos h] using ih hc
    · refine ih ?_
      rw [if_neg h]
      simpa [List.nodup_append] using ⟨hc, h⟩

theorem length_addIds_ge (completed : List String) (batch : List ParallelTask) :
    completed.length ≤ (addIds completed batch).length := by
  induction batch generalizing completed with
  | nil => simp [addIds]
  | cons t ts ih =>
    rw [addIds_cons]
    by_cases h : t.id ∈ completed
    · simpa [if_pos h] using ih completed
    · rw [if_neg h]
      calc completed.length ≤ (completed ++ [t.id]).length := by simp
        _ ≤ _ := ih _

theorem length_addIds_lt (completed : List String) (batch : List ParallelTask)
    (h : ∃ t ∈ batch, t.id ∉ completed) :
    completed.length < (addIds completed batch).length := by
  induction batch generalizing completed with
  | nil => simp at h
  | cons t ts ih =>
    rw [addIds_cons]
    by_cases ht : t.id ∈ completed
    · rw [if_pos ht]
      rcases h with ⟨u, hu, hui⟩
      rcases List.mem_cons.mp hu with hu | hu
      · exact absurd ht (hu ▸ hui)
      · exact ih completed ⟨u, hu, hui⟩
    · rw [if_neg ht]
      calc completed.length < (completed ++ [t.id]).length := by simp
        _ ≤ _ := length_addIds_ge _ _

theorem addIds_eq_append (completed : List String) (batch : List ParallelTask)
    (hn : (batch.map (fun t => t.id)).Nodup)
    (hd : ∀ t ∈ batch, t.id ∉ completed) :
    addIds completed batch = completed ++ batch.map (fun t => t.id) := by
  induction batch generalizing completed with
  | nil => simp [addIds]
  | cons t ts ih =>
    rw [addIds_cons, if_neg (hd t (List.mem_cons_self t ts))]
    rw [ih (completed ++ [t.id]) (by simpa using hn.of_cons) ?_]
    · simp
    · intro u hu
      simp only [List.mem_append, List.mem_singleton]
      push_neg
      refine ⟨hd u (List.mem_cons_of_mem t hu), ?_⟩
      intro hui
      have : t.id ∈ ts.map (fun t => t.id) := by
        exact hui ▸ List.mem_map_of_mem (fun t => t.id) hu
      simp only [List.map_cons, List.nodup_cons] at hn
      exact hn.1 this

end AddIdsLemmas

section ResolverLemmas

theorem resolveAux_stop (tasks : List ParallelTask) (fuel : Nat) (completed : List String)
    (h : ¬ completed.length < tasks.length) :
    resolveAux tasks fuel completed = some ([], 0) := by
  cases fuel <;> simp [resolveAux, h]

theorem resolveAux_zero_none (tasks : List ParallelTask) (completed : List String)
    (h : completed.length < tasks.length) :
    resolveAux tasks 0 completed = none := by
  simp [resolveAux, h]

theorem resolveAux_succ (tasks : List ParallelTask) (fuel : Nat) (completed : List String)
    (h : completed.length < tasks.length) :
    resolveAux tasks (fuel + 1) completed =
      match resolveAux tasks fuel (addIds completed (nextBatch tasks completed)) with
      | none => none
      | some (bs, w) =>
          some (nextBatch tasks completed :: bs,
            (if (naturalReady tasks completed).isEmpty then 1 else 0) + w) := by
  simp [resolveAux, h]

theorem mem_naturalReady {tasks : List ParallelTask} {completed : List String}
    {t : ParallelTask} :
    t ∈ naturalReady tasks completed ↔
      t ∈ tasks ∧ t.id ∉ completed ∧ ∀ d ∈ t.dependencies, d ∈ completed := by
  simp [naturalReady, List.mem_filter, and_assoc]

theorem mem_unplaced {tasks : List ParallelTask} {completed : List String}
    {t : ParallelTask} :
    t ∈ unplaced tasks completed ↔ t ∈ tasks ∧ t.id ∉ completed := by
  simp [unplaced, List.mem_filter]

theorem mem_nextBatch_sub {tasks : List ParallelTask} {completed : List String}
    {t : ParallelTask} (h : t ∈ nextBatch tasks completed) :
    t ∈ tasks ∧ t.id ∉ completed := by
  rw [nextBatch, mem_sortDesc] at h
  by_cases he : (naturalReady tasks completed).isEmpty
  · rw [if_pos he, mem_unplaced] at h
    exact h
  · rw [if_neg he, mem_naturalReady] at h
    exact ⟨h.1, h.2.1⟩

theorem exists_min_rank (f : ParallelTask → Nat) :
    ∀ l : List ParallelTask, l ≠ [] → ∃ t ∈ l, ∀ u ∈ l, f t ≤ f u := by
  intro l
  induction l with
  | nil => intro h; exact absurd rfl h
  | cons x xs ih =>
    intro _
    cases xs with
    | nil => exact ⟨x, List.mem_singleton_self x, by simp⟩
    | cons y ys =>
      obtain ⟨m, hm, hmin⟩ := ih (by simp)
      by_cases hf : f x ≤ f m
      · refine ⟨x, List.mem_cons_self x _, ?_⟩
        intro u hu
        rcases List.mem_cons.mp hu with hu | hu
        · subst hu; exact le_refl _
        · exact hf.trans (hmin u hu)
      · refine ⟨m, List.mem_cons_of_mem x hm, ?_⟩
        intro u hu
        rcases List.mem_cons.mp hu with hu | hu
        · subst hu; omega
        · exact hmin u hu

theorem naturalReady_ne_nil {tasks : List ParallelTask}
    (hdeps : ∀ t ∈ tasks, ∀ d ∈ t.dependencies, d ∈ tasks.map (fun t => t.id))
    (rank : String → Nat)
    (hrank : ∀ t ∈ tasks, ∀ d ∈ t.dependencies, rank d < rank t.id)
    (completed : List String)
    (hun : unplaced tasks completed ≠ []) :
    naturalReady tasks completed ≠ [] := by
  obtain ⟨t, ht, hmin⟩ := exists_min_rank (fun u => rank u.id) _ hun
  rw [mem_unplaced] at ht
  have htn : t ∈ naturalReady tasks completed := by
    rw [mem_naturalReady]
    refine ⟨ht.1, ht.2, ?_⟩
    intro d hd
    by_contra hdc
    obtain ⟨u, hu, hui⟩ := List.mem_map.mp (hdeps t ht.1 d hd)
    have huu : u ∈ unplaced tasks completed := mem_unplaced.mpr ⟨hu, hui ▸ hdc⟩
    have h1 := hmin u huu
    have h2 := hrank t ht.1 d hd
    rw [hui] at h1
    omega
  intro hnil
  rw [hnil] at htn
  exact absurd htn (List.not_mem_nil t)

theorem exists_unplaced_of_lt {tasks : List ParallelTask} {completed : List String}
    (hids : (tasks.map (fun t => t.id)).Nodup)
    (hlt : completed.length < tasks.length) :
    ∃ t ∈ tasks, t.id ∉ completed := by
  by_contra h
  push_neg at h
  have hsub2 : (tasks.map (fun t => t.id)).toFinset ⊆ completed.toFinset := by
    intro i hi
    rw [List.mem_toFinset] at hi ⊢
    obtain ⟨u, hu, hui⟩ := List.mem_map.mp hi
    exact hui ▸ h u hu
  have h1 : (tasks.map (fun t => t.id)).toFinset.card = tasks.length := by
    rw [List.toFinset_card_of_nodup hids, List.length_map]
  have h2 : completed.toFinset.card ≤ completed.length := List.toFinset_card_le completed
  have := Finset.card_le_card hsub2
  omega

theorem exists_nextBatch_new {tasks : List ParallelTask} {completed : List String}
    (hids : (tasks.map (fun t => t.id)).Nodup)
    (hlt : completed.length < tasks.length) :
    ∃ t ∈ nextBatch tasks completed, t.id ∉ completed := by
  obtain ⟨t0, ht0, ht0c⟩ := exists_unplaced_of_lt hids hlt
  rw [nextBatch]
  by_cases he : (naturalReady tasks completed).isEmpty
  · refine ⟨t0, ?_, ht0c⟩
    rw [if_pos he, mem_sortDesc, mem_unplaced]
    exact ⟨ht0, ht0c⟩
  · have hne : naturalReady tasks completed ≠ [] := by
      simpa [List.isEmpty_iff] using he
    obtain ⟨u, hu⟩ := List.exists_mem_of_ne_nil _ hne
    refine ⟨u, ?_, (mem_naturalReady.mp hu).2.1⟩
    rw [if_neg he, mem_sortDesc]
    exact hu

theorem resolveAux_isSome {tasks : List ParallelTask}
    (hids : (tasks.map (fun t => t.id)).Nodup) :
    ∀ (fuel : Nat) (completed : List String), completed.Nodup →
      (∀ i ∈ completed, i ∈ tasks.map (fun t => t.id)) →
      tasks.length - completed.length ≤ fuel →
      ∃ r, resolveAux tasks fuel completed = some r := by
  intro fuel
  induction fuel with
  | zero =>
    intro completed hnd hsub hf
    exact ⟨([], 0), resolveAux_stop tasks 0 completed (by omega)⟩
  | succ fuel ih =>
    intro completed hnd hsub hf
    by_cases hlt : completed.length < tasks.length
    · have hnew := exists_nextBatch_new hids hlt
      have hlen := length_addIds_lt completed (nextBatch tasks completed) hnew
      have hge := length_addIds_ge completed (nextBatch tasks completed)
      obtain ⟨r, hr⟩ := ih (addIds completed (nextBatch tasks completed))
        (nodup_addIds _ hnd)
        (by
          intro i hi
          rcases (mem_addIds _ _ _).mp hi with hi | ⟨u, hu, hui⟩
          · exact hsub i hi
          · exact hui ▸ List.mem_map_of_mem (fun t => t.id) (mem_nextBatch_sub hu).1)
        (by omega)
      refine ⟨(nextBatch tasks completed :: r.1,
        (if (naturalReady tasks completed).isEmpty then 1 else 0) + r.2), ?_⟩
      rw [resolveAux_succ tasks fuel completed hlt, hr]
    · exact ⟨([], 0), resolveAux_stop tasks _ completed hlt⟩

end ResolverLemmas

section ResolverInvariants

theorem nextBatch_ids_nodup {tasks : List ParallelTask} (completed : List String)
    (hids : (tasks.map (fun t => t.id)).Nodup) :
    ((nextBatch tasks completed).map (fun t => t.id)).Nodup := by
  rw [nextBatch]
  set l := if (naturalReady tasks completed).isEmpty then unplaced tasks completed
           else naturalReady tasks completed with hl
  have hsl : l.Sublist tasks := by
    rw [hl]
    split <;> exact List.filter_sublist tasks
  have h1 : (l.map (fun t => t.id)).Nodup := (hsl.map (fun t => t.id)).nodup hids
  exact (((sortDesc_perm l).map (fun t => t.id)).nodup_iff).mpr h1

theorem some_pair_inj {bs bs' : List (List ParallelTask)} {w w' : Nat}
    (h : (some (bs, w) : Option (List (List ParallelTask) × Nat)) = some (bs', w')) :
    bs = bs' ∧ w = w' := by
  simpa using h

theorem resolveAux_deps_prior {tasks : List ParallelTask}
    (hdeps : ∀ t ∈ tasks, ∀ d ∈ t.dependencies, d ∈ tasks.map (fun t => t.id))
    (rank : String → Nat)
    (hrank : ∀ t ∈ tasks, ∀ d ∈ t.dependencies, rank d < rank t.id) :
    ∀ (fuel : Nat) (completed : List String) (bs : List (List ParallelTask)) (w : Nat),
      resolveAux tasks fuel completed = some (bs, w) →
      ∀ i (hi : i < bs.length), ∀ t ∈ bs[i], ∀ d ∈ t.dependencies,
        d ∈ completed ∨ d ∈ ((bs.take i).flatten.map (fun u => u.id)) := by
  intro fuel
  induction fuel with
  | zero =>
    intro completed bs w h i hi t ht d hd
    by_cases hlt : completed.length < tasks.length
    · rw [resolveAux_zero_none _ _ hlt] at h
      exact absurd h (by simp)
    · rw [resolveAux_stop _ _ _ hlt] at h
      obtain ⟨rfl, rfl⟩ := some_pair_inj h
      simp at hi
  | succ fuel ih =>
    intro completed bs w h i hi t ht d hd
    by_cases hlt : completed.length < tasks.length
    · rw [resolveAux_succ _ _ _ hlt] at h
      cases hrec : resolveAux tasks fuel (addIds completed (nextBatch tasks completed)) with
      | none => rw [hrec] at h; exact absurd h (by simp)
      | some r =>
        obtain ⟨bs', w'⟩ := r
        rw [hrec] at h
        obtain ⟨hbs, hw⟩ := some_pair_inj h
        subst hbs
        cases i with
        | zero =>
          simp only [List.getElem_cons_zero] at ht
          by_cases he : (naturalReady tasks completed).isEmpty
          · have hnat : naturalReady tasks completed = [] := List.isEmpty_iff.mp he
            by_cases hun : unplaced tasks completed = []
            · have hnil : nextBatch tasks completed = [] := by
                rw [nextBatch, if_pos he, hun]; rfl
              rw [hnil] at ht
              exact absurd ht (List.not_mem_nil t)
            · exact absurd hnat (naturalReady_ne_nil hdeps rank hrank completed hun)
          · have htn : t ∈ naturalReady tasks completed := by
              rw [nextBatch, if_neg he, mem_sortDesc] at ht
              exact ht
            exact Or.inl ((mem_naturalReady.mp htn).2.2 d hd)
        | succ j =>
          simp only [List.getElem_cons_succ] at ht
          simp only [List.length_cons, Nat.add_lt_add_iff_right] at hi
          have hprev := ih (addIds completed (nextBatch tasks completed)) bs' w' hrec
            j hi t ht d hd
          simp only [List.take_succ_cons, List.flatten_cons, List.map_append, List.mem_append]
          rcases hprev with hc | hr
          · rcases (mem_addIds _ _ _).mp hc with hc | ⟨u, hu, hui⟩
            · exact Or.inl hc
            · exact Or.inr (Or.inl (hui ▸ List.mem_map_of_mem (fun u => u.id) hu))
          · exact Or.inr (Or.inr hr)
    · rw [resolveAux_stop _ _ _ hlt] at h
      obtain ⟨rfl, rfl⟩ := some_pair_inj h
      simp at hi

theorem resolveAux_cover {tasks : List ParallelTask}
    (hids : (tasks.map (fun t => t.id)).Nodup) :
    ∀ (fuel : Nat) (completed : List String) (bs : List (List ParallelTask)) (w : Nat),
      completed.Nodup →
      (∀ i ∈ completed, i ∈ tasks.map (fun t => t.id)) →
      resolveAux tasks fuel completed = some (bs, w) →
      ∀ t ∈ tasks, t.id ∈ completed ∨ t.id ∈ bs.flatten.map (fun u => u.id) := by
  have stop : ∀ (completed : List String), completed.Nodup →
      (∀ i ∈ completed, i ∈ tasks.map (fun t => t.id)) →
      ¬ completed.length < tasks.length →
      ∀ t ∈ tasks, t.id ∈ completed := by
    intro completed hnd hsub hlt t ht
    have hsub2 : completed.toFinset ⊆ (tasks.map (fun t => t.id)).toFinset := by
      intro i hi
      rw [List.mem_toFinset] at hi ⊢
      exact hsub i hi
    have h1 : completed.toFinset.card = completed.length :=
      List.toFinset_card_of_nodup hnd
    have h2 : (tasks.map (fun t => t.id)).toFinset.card = tasks.length := by
      rw [List.toFinset_card_of_nodup hids, List.length_map]
    have heq := Finset.eq_of_subset_of_card_le hsub2 (by omega)
    have : t.id ∈ (tasks.map (fun t => t.id)).toFinset := by
      rw [List.mem_toFinset]
      exact List.mem_map_of_mem (fun t => t.id) ht
    rw [← heq, List.mem_toFinset] at this
    exact this
  intro fuel
  induction fuel with
  | zero =>
    intro completed bs w hnd hsub h t ht
    by_cases hlt : completed.length < tasks.length
    · rw [resolveAux_zero_none _ _ hlt] at h
      exact absurd h (by simp)
    · exact Or.inl (stop completed hnd hsub hlt t ht)
  | succ fuel ih =>
    intro completed bs w hnd hsub h t ht
    by_cases hlt : completed.length < tasks.length
    · rw [resolveAux_succ _ _ _ hlt] at h
      cases hrec : resolveAux tasks fuel (addIds completed (nextBatch tasks completed)) with
      | none => rw [hrec] at h; exact absurd h (by simp)
      | some r =>
        obtain ⟨bs', w'⟩ := r
        rw [hrec] at h
        obtain ⟨hbs, hw⟩ := some_pair_inj h
        subst hbs
        have hprev := ih (addIds completed (nextBatch tasks completed)) bs' w'
          (nodup_addIds _ hnd)
          (by
            intro i hi
            rcases (mem_addIds _ _ _).mp hi with hi | ⟨u, hu, hui⟩
            · exact hsub i hi
            · exact hui ▸ List.mem_map_of_mem (fun t => t.id) (mem_nextBatch_sub hu).1)
          hrec t ht
        simp only [List.flatten_cons, List.map_append, List.mem_append]
        rcases hprev with hc | hr
        · rcases (mem_addIds _ _ _).mp hc with hc | ⟨u, hu, hui⟩
          · exact Or.inl hc
          · exact Or.inr (Or.inl (hui ▸ List.mem_map_of_mem (fun u => u.id) hu))
        · exact Or.inr (Or.inr hr)
    · exact Or.inl (stop completed hnd hsub hlt t ht)

theorem resolveAux_batches_sub {tasks : List ParallelTask} :
    ∀ (fuel : Nat) (completed : List String) (bs : List (List ParallelTask)) (w : Nat),
      resolveAux tasks fuel completed = some (bs, w) →
      ∀ b ∈ bs, ∀ t ∈ b, t ∈ tasks := by
  intro fuel
  induction fuel with
  | zero =>
    intro completed bs w h b hb t ht
    by_cases hlt : completed.length < tasks.length
    · rw [resolveAux_zero_none _ _ hlt] at h
      exact absurd h (by simp)
    · rw [resolveAux_stop _ _ _ hlt] at h
      obtain ⟨rfl, rfl⟩ := some_pair_inj h
      exact absurd hb (List.not_mem_nil b)
  | succ fuel ih =>
    intro completed bs w h b hb t ht
    by_cases hlt : completed.length < tasks.length
    · rw [resolveAux_succ _ _ _ hlt] at h
      cases hrec : resolveAux tasks fuel (addIds completed (nextBatch tasks completed)) with
      | none => rw [hrec] at h; exact absurd h (by simp)
      | some r =>
        obtain ⟨bs', w'⟩ := r
        rw [hrec] at h
        obtain ⟨hbs, hw⟩ := some_pair_inj h
        subst hbs
        rcases List.mem_cons.mp hb with hb | hb
        · subst hb
          exact (mem_nextBatch_sub ht).1
        · exact ih _ bs' w' hrec b hb t ht
    · rw [resolveAux_stop _ _ _ hlt] at h
      obtain ⟨rfl, rfl⟩ := some_pair_inj h
      exact absurd hb (List.not_mem_nil b)

theorem resolveAux_nodup_keys {tasks : List ParallelTask}
    (hids : (tasks.map (fun t => t.id)).Nodup) :
    ∀ (fuel : Nat) (completed : List String) (bs : List (List ParallelTask)) (w : Nat),
      completed.Nodup →
      resolveAux tasks fuel completed = some (bs, w) →
      (completed ++ bs.flatten.map (fun t => t.id)).Nodup := by
  intro fuel
  induction fuel with
  | zero =>
    intro completed bs w hnd h
    by_cases hlt : completed.length < tasks.length
    · rw [resolveAux_zero_none _ _ hlt] at h
      exact absurd h (by simp)
    · rw [resolveAux_stop _ _ _ hlt] at h
      obtain ⟨rfl, rfl⟩ := some_pair_inj h
      simpa using hnd
  | succ fuel ih =>
    intro completed bs w hnd h
    by_cases hlt : completed.length < tasks.length
    · rw [resolveAux_succ _ _ _ hlt] at h
      cases hrec : resolveAux tasks fuel (addIds completed (nextBatch tasks completed)) with
      | none => rw [hrec] at h; exact absurd h (by simp)
      | some r =>
        obtain ⟨bs', w'⟩ := r
        rw [hrec] at h
        obtain ⟨hbs, hw⟩ := some_pair_inj h
        subst hbs
        have heq : addIds completed (nextBatch tasks completed) =
            completed ++ (nextBatch tasks completed).map (fun t => t.id) :=
          addIds_eq_append completed _ (nextBatch_ids_nodup completed hids)
            (fun t ht => (mem_nextBatch_sub ht).2)
        have hprev := ih (addIds completed (nextBatch tasks completed)) bs' w'
          (nodup_addIds _ hnd) hrec
        rw [heq] at hprev
        simpa [List.flatten_cons, List.map_append, List.append_assoc] using hprev
    · rw [resolveAux_stop _ _ _ hlt] at h
      obtain ⟨rfl, rfl⟩ := some_pair_inj h
      simpa using hnd

end ResolverInvariants

section CompletedSaturation

theorem all_ids_completed_of_not_lt {tasks : List ParallelTask} {completed : List String}
    (hids : (tasks.map (fun t => t.id)).Nodup)
    (hnd : completed.Nodup)
    (hsub : ∀ i ∈ completed, i ∈ tasks.map (fun t => t.id))
    (hge : ¬ completed.length < tasks.length) :
    ∀ t ∈ tasks, t.id ∈ completed := by
  intro t ht
  have hsub2 : completed.toFinset ⊆ (tasks.map (fun t => t.id)).toFinset := by
    intro i hi
    rw [List.mem_toFinset] at hi ⊢
    exact hsub i hi
  have h1 : completed.toFinset.card = completed.length :=
    List.toFinset_card_of_nodup hnd
  have h2 : (tasks.map (fun t => t.id)).toFinset.card = tasks.length := by
    rw [List.toFinset_card_of_nodup hids, List.length_map]
  have heq := Finset.eq_of_subset_of_card_le hsub2 (by omega)
  have hmem : t.id ∈ (tasks.map (fun t => t.id)).toFinset := by
    rw [List.mem_toFinset]
    exact List.mem_map_of_mem (fun t => t.id) ht
  rw [← heq, List.mem_toFinset] at hmem
  exact hmem

end CompletedSaturation

/-- Models the outcome of one call to the external Claude Code SDK query
capability, as seen by execute_single_task (lines 95-101): a stream of text
chunks appended to result_parts, or an exception.  asyncio.TimeoutError is
kept apart from a generic exception because lines 115-134 treat the two
differently. -/
inductive ExecBehavior where
  | yields (chunks : List String)
  | raisesTimeout
  | raises (msg : String)
deriving DecidableEq

/-- execute_single_task (lines 74-134).  The success path joins the collected
chunks with a newline, '\n'.join(result_parts) (line 104); asyncio.TimeoutError
becomes a failed result with error "Task timeout" (lines 115-124); any other
exception e becomes a failed result with error str(e) (lines 125-134).
elapsed stands for the wall-clock difference time.time() - start_time the
code records; the scheduler never reads task.timeout. -/
def executeSingleTask (b : ExecBehavior) (task : ParallelTask) (elapsed : Nat) : TaskResult :=
  match b with
  | .yields chunks =>
      { task_id := task.id, success := true, result := String.intercalate "\n" chunks,
        error := none, execution_time := elapsed }
  | .raisesTimeout =>
      { task_id := task.id, success := false, result := "",
        error := some "Task timeout", execution_time := elapsed }
  | .raises msg =>
      { task_id := task.id, success := false, result := "",
        error := some msg, execution_time := elapsed }

/-- What asyncio.gather(..., return_exceptions=True) observes for one task
(lines 202-205): either execute_single_task completed and returned a
TaskResult, or an exception escaped it and reaches gather as a value. -/
inductive TaskRun where
  | completes (b : ExecBehavior)
  | escapes (msg : String)
deriving DecidableEq

/-- The per-task result-processing branch of _execute_with_progress
(lines 207-219): an escaped exception is converted into a failed TaskResult
with error str(result) and execution_time 0.0. -/
def collectResult (run : TaskRun) (task : ParallelTask) (elapsed : Nat) : TaskResult :=
  match run with
  | .completes b => executeSingleTask b task elapsed
  | .escapes msg =>
      { task_id := task.id, success := false, result := "",
        error := some msg, execution_time := 0 }

/-- One batch of the gather loop (lines 194-219): every task of the batch
yields exactly one (task.id, result) entry of all_results, in batch order.
env gives the external capability's behaviour per task id and el the measured
elapsed time per task id. -/
def runBatch (env : String → TaskRun) (el : String → Nat) (batch : List ParallelTask) :
    List (String × TaskResult) :=
  batch.map (fun t => (t.id, collectResult (env t.id) t (el t.id)))

/-- The outer batch loop of _execute_with_progress / _execute_without_progress
(lines 181-258): batches run strictly in order and their entries accumulate
into all_results. -/
def executeBatches (env : String → TaskRun) (el : String → Nat)
    (bss : List (List ParallelTask)) : List (String × TaskResult) :=
  (bss.map (runBatch env el)).flatten

/-- execute_batch (lines 136-152): resolve dependencies, then execute the
batches; none when _resolve_dependencies does not terminate within |tasks|
loop iterations. -/
def executeBatch (env : String → TaskRun) (el : String → Nat)
    (tasks : List ParallelTask) : Option (List (String × TaskResult) × Nat) :=
  match resolveDependencies tasks with
  | none => none
  | some (bs, w) => some (executeBatches env el bs, w)

section ExecutionLemmas

theorem runBatch_keys (env : String → TaskRun) (el : String → Nat)
    (batch : List ParallelTask) :
    (runBatch env el batch).map Prod.fst = batch.map (fun t => t.id) := by
  simp [runBatch, List.map_map]

theorem executeBatches_cons (env : String → TaskRun) (el : String → Nat)
    (b : List ParallelTask) (bss : List (List ParallelTask)) :
    executeBatches env el (b :: bss) = runBatch env el b ++ executeBatches env el bss := by
  simp [executeBatches]

theorem executeBatches_keys (env : String → TaskRun) (el : String → Nat)
    (bss : List (List ParallelTask)) :
    (executeBatches env el bss).map Prod.fst = bss.flatten.map (fun t => t.id) := by
  induction bss with
  | nil => rfl
  | cons b bss ih =>
    rw [executeBatches_cons, List.map_append, runBatch_keys, ih, List.flatten_cons,
      List.map_append]

end ExecutionLemmas

/-- The state of one batch under the per-batch semaphore of
_execute_with_progress (lines 195-205): tasks still queued, tasks currently
holding one of the semaphore permits (in flight), and finished entries. -/
structure BatchState where
  pending : List ParallelTask
  running : List ParallelTask
  done : List (String × TaskResult)
deriving DecidableEq

/-- Small-step semantics of one batch under asyncio.Semaphore(max_parallel)
(lines 195-205): a task may enter its execute call only while fewer than
max_parallel tasks hold a permit (async with semaphore), and leaving the
block releases the permit and records the task's TaskResult. -/
inductive BatchStep (env : String → TaskRun) (el : String → Nat) (k : Nat) :
    BatchState → BatchState → Prop
  | start (s : BatchState) (t : ParallelTask) (ht : t ∈ s.pending)
      (hcap : s.running.length < k) :
      BatchStep env el k s ⟨s.pending.erase t, t :: s.running, s.done⟩
  | finish (s : BatchState) (t : ParallelTask) (ht : t ∈ s.running) :
      BatchStep env el k s
        ⟨s.pending, s.running.erase t,
          (t.id, collectResult (env t.id) t (el t.id)) :: s.done⟩

/-- Chain input a <- b <- c used by the specification's linear-chain test. -/
def ta : ParallelTask := { id := "a" }

/-- Second task of the chain, depending on a. -/
def tb : ParallelTask := { id := "b", dependencies := ["a"] }

/-- Third task of the chain, depending on b. -/
def tc : ParallelTask := { id := "c", dependencies := ["b"] }

/-- A topological rank for the chain input. -/
def chainRank : String → Nat := fun s => if s = "a" then 0 else if s = "b" then 1 else 2

/-- First of two distinct tasks sharing the id "x". -/
def dx1 : ParallelTask := { id := "x", description := "first" }

/-- Second of two distinct tasks sharing the id "x". -/
def dx2 : ParallelTask := { id := "x", description := "second" }

/-- First half of the two-task dependency cycle a <-> b. -/
def ca : ParallelTask := { id := "a", dependencies := ["b"] }

/-- Second half of the two-task dependency cycle a <-> b. -/
def cb : ParallelTask := { id := "b", dependencies := ["a"] }

/-- Priority-1 task, listed first among the equal-priority pair. -/
def w8a : ParallelTask := { id := "a8", priority := 1 }

/-- Priority-3 task: must come first in the sorted batch. -/
def w8b : ParallelTask := { id := "b8", priority := 3 }

/-- Priority-1 task, listed last: must stay after w8a (stable tie). -/
def w8c : ParallelTask := { id := "c8", priority := 1 }

/-- A five-task batch in which only f3 will raise. -/
def batch5 : List ParallelTask :=
  [{ id := "f1" }, { id := "f2" }, { id := "f3" }, { id := "f4" }, { id := "f5" }]

/-- A task for the batch following batch5. -/
def f6task : ParallelTask := { id := "f6" }

/-- Capability behaviour where exactly task f3 raises an exception. -/
def env7 : String → TaskRun := fun s =>
  if s = "f3" then TaskRun.completes (ExecBehavior.raises "boom")
  else TaskRun.completes (ExecBehavior.yields ["ok"])

/-- Elapsed-time readings for the failure-isolation batch. -/
def el7 : String → Nat := fun _ => 0

/-- Task used for the chunk-handling results. -/
def t9 : ParallelTask := { id := "t9" }

/-- A task declaring a 1-second bound that the code never enforces. -/
def slowTask : ParallelTask := { id := "slow", timeout := some 1 }

/-- Single task used to exercise the concurrency transition system. -/
def wt1 : ParallelTask := { id := "w1" }

/-- Always-succeeding capability behaviour. -/
def env0 : String → TaskRun := fun _ => TaskRun.completes (ExecBehavior.yields ["ok"])

/-- Constant elapsed-time readings. -/
def el0 : String → Nat := fun _ => 1

/-- Claim C2: within one executed batch, the number of simultaneously
in-flight calls to the executor capability never exceeds the configured
max_parallel, which the constructor silently clamps to the external ceiling
min(max_parallel, 10): every state reachable under the semaphore semantics
from the idle batch state keeps at most that many tasks running. -/
theorem concurrency_cap_respected :
    ∀ (mp : Nat) (env : String → TaskRun) (el : String → Nat)
      (batch : List ParallelTask) (s : BatchState),
      Relation.ReflTransGen (BatchStep env el (ParallelTaskExecutor.init mp).max_parallel)
        (BatchState.mk batch [] []) s →
      s.running.length ≤ (ParallelTaskExecutor.init mp).max_parallel ∧
      (ParallelTaskExecutor.init mp).max_parallel = min mp 10 := by
  intro mp env el batch s h
  refine ⟨?_, rfl⟩
  induction h with
  | refl => simp
  | tail hab hbc ih =>
    cases hbc with
    | start t ht hcap =>
      simp only [List.length_cons]
      omega
    | finish t ht =>
      exact le_trans (List.Sublist.length_le (List.erase_sublist _ _)) ih

/-- Witness for C2: after the single task of a one-task batch acquires a
permit, exactly one call is in flight, within the clamped cap min 2 10. -/
theorem concurrency_cap_respected_witness :
    (BatchState.mk (([wt1] : List ParallelTask).erase wt1) [wt1] []).running.length ≤
      (ParallelTaskExecutor.init 2).max_parallel ∧
    (ParallelTaskExecutor.init 2).max_parallel = min 2 10 :=
  concurrency_cap_respected 2 env0 el0 [wt1] _
    (Relation.ReflTransGen.single
      (BatchStep.start (BatchState.mk [wt1] [] []) wt1 (by decide) (by decide)))

/-- Claim C3 (code bug): execute_batch never checks for duplicate task ids;
on a list holding two distinct tasks with the same id "x" the
_resolve_dependencies loop never terminates, whatever number of iterations
it is granted — after the first iteration completes the single id "x", every
later iteration finds no unplaced task and places nothing — so no rejection
or report ever reaches the caller. -/
theorem duplicate_ids_hang_resolver :
    ∀ fuel : Nat, resolveAux [dx1, dx2] fuel [] = none := by
  have aux : ∀ fuel : Nat, resolveAux [dx1, dx2] fuel ["x"] = none := by
    intro fuel
    induction fuel with
    | zero => rfl
    | succ fuel ih =>
      rw [resolveAux_succ [dx1, dx2] fuel ["x"] (by decide)]
      have h1 : addIds ["x"] (nextBatch [dx1, dx2] ["x"]) = ["x"] := by decide
      rw [h1, ih]
  intro fuel
  cases fuel with
  | zero => rfl
  | succ fuel =>
    rw [resolveAux_succ [dx1, dx2] fuel [] (by decide)]
    have h1 : addIds [] (nextBatch [dx1, dx2] []) = ["x"] := by decide
    rw [h1, aux fuel]

/-- Claim C4 counterexample: the input [dx1, dx2] (two tasks with the same
id) is not resolved within |tasks| = 2 loop iterations — the claim's bound
fails, and by duplicate_ids_hang_resolver no bound suffices. -/
theorem resolver_termination_counterexample :
    resolveDependencies [dx1, dx2] = none := by decide

/-- Claim C4 (amended): for every input task list with pairwise-distinct ids,
the _resolve_dependencies loop terminates within at most |tasks| iterations. -/
theorem resolver_termination_of_unique_ids :
    ∀ tasks : List ParallelTask, (tasks.map (fun t => t.id)).Nodup →
      ∃ r, resolveDependencies tasks = some r := by
  intro tasks hids
  exact resolveAux_isSome hids tasks.length [] List.nodup_nil (by simp) (by omega)

/-- Witness for C4: the chain input resolves within its |tasks| iterations. -/
theorem resolver_termination_of_unique_ids_witness :
    ∃ r, resolveDependencies [ta, tb, tc] = some r :=
  resolver_termination_of_unique_ids [ta, tb, tc] (by decide)

/-- Claim C7: each task of a batch contributes its own independently
computed entry to the batch results, so one task's exception cannot disturb
its siblings; concretely, in the five-task batch where exactly f3 raises,
exactly 1 result is failed and 4 succeed, f3's entry carries the error text,
and the following batch still executes. -/
theorem failure_isolation_in_batch :
    (∀ (env : String → TaskRun) (el : String → Nat) (batch : List ParallelTask)
      (t : ParallelTask), t ∈ batch →
        (t.id, collectResult (env t.id) t (el t.id)) ∈ runBatch env el batch) ∧
    (runBatch env7 el7 batch5).countP (fun p => !p.2.success) = 1 ∧
    (runBatch env7 el7 batch5).countP (fun p => p.2.success) = 4 ∧
    (runBatch env7 el7 batch5).length = 5 ∧
    (runBatch env7 el7 batch5).lookup "f3" =
      some { task_id := "f3", success := false, result := "",
             error := some "boom", execution_time := 0 } ∧
    ("f6", collectResult (env7 "f6") f6task (el7 "f6")) ∈
      executeBatches env7 el7 [batch5, [f6task]] := by
  refine ⟨?_, by decide, by decide, by decide, by decide, by decide⟩
  intro env el batch t ht
  exact List.mem_map_of_mem (fun t => (t.id, collectResult (env t.id) t (el t.id))) ht

/-- Witness for C7: f1's own entry is present in the mixed batch. -/
theorem failure_isolation_in_batch_witness :
    (("f1" : String), collectResult (env7 "f1") { id := "f1" } (el7 "f1")) ∈
      runBatch env7 el7 batch5 :=
  failure_isolation_in_batch.1 env7 el7 batch5 { id := "f1" } (by decide)

/-- Claim C9 counterexample: two chunks "a" and "b" are joined by
'\n'.join into "a\nb", not concatenated into "ab" — the code inserts a
newline separator between chunks. -/
theorem chunk_join_counterexample :
    (executeSingleTask (ExecBehavior.yields ["a", "b"]) t9 0).result = "a\nb" ∧
    (executeSingleTask (ExecBehavior.yields ["a", "b"]) t9 0).result ≠ "a" ++ "b" := by
  constructor
  · rfl
  · decide

/-- Claim C9 (amended): a task whose capability yields zero chunks still
succeeds with an empty result string, and multiple chunks are joined into
one result string in the order received, with a newline separator between
consecutive chunks ('\n'.join). -/
theorem chunk_handling_join :
    ∀ (task : ParallelTask) (chunks : List String) (el : Nat),
      (executeSingleTask (ExecBehavior.yields chunks) task el).success = true ∧
      (executeSingleTask (ExecBehavior.yields chunks) task el).result =
        String.intercalate "\n" chunks ∧
      executeSingleTask (ExecBehavior.yields []) task el =
        { task_id := task.id, success := true, result := "",
          error := none, execution_time := el } := by
  intro task chunks el
  exact ⟨rfl, rfl, rfl⟩

/-- Claim C10 (code bug): execute_single_task never reads task.timeout —
no wait_for wraps the query call — so the produced TaskResult is entirely
independent of the declared bound, and a task whose bound has long elapsed
still succeeds when the capability eventually completes; only a
TimeoutError raised by the capability itself yields the distinct
"Task timeout" error. -/
theorem timeout_never_enforced :
    (∀ (b : ExecBehavior) (t : ParallelTask) (el : Nat) (to1 to2 : Option Nat),
        executeSingleTask b { t with timeout := to1 } el =
        executeSingleTask b { t with timeout := to2 } el) ∧
    (executeSingleTask (ExecBehavior.yields ["late"]) slowTask 100).success = true ∧
    (executeSingleTask ExecBehavior.raisesTimeout slowTask 5).error = some "Task timeout" := by
  refine ⟨?_, rfl, rfl⟩
  intro b t el to1 to2
  cases b <;> rfl

/-- Claim C1: on an input with pairwise-distinct ids whose dependency graph
is acyclic (witnessed by a rank function strictly decreasing along
dependency edges) and whose dependency ids all name input tasks,
_resolve_dependencies succeeds and places every dependency of every task in
a strictly earlier batch; in particular the linear chain a <- b <- c yields
exactly the batches [a], [b], [c] with no cycle warning. -/
theorem dependency_order_of_batches :
    (∀ (tasks : List ParallelTask) (rank : String → Nat),
        (tasks.map (fun t => t.id)).Nodup →
        (∀ t ∈ tasks, ∀ d ∈ t.dependencies, d ∈ tasks.map (fun t => t.id)) →
        (∀ t ∈ tasks, ∀ d ∈ t.dependencies, rank d < rank t.id) →
        ∃ bs w, resolveDependencies tasks = some (bs, w) ∧
          ∀ i (hi : i < bs.length), ∀ t ∈ bs[i], ∀ d ∈ t.dependencies,
            d ∈ ((bs.take i).flatten.map (fun u => u.id))) ∧
    resolveDependencies [ta, tb, tc] = some ([[ta], [tb], [tc]], 0) := by
  constructor
  · intro tasks rank hids hdeps hrank
    obtain ⟨⟨bs, w⟩, h⟩ :=
      resolveAux_isSome hids tasks.length [] List.nodup_nil (by simp) (by omega)
    refine ⟨bs, w, h, ?_⟩
    intro i hi t ht d hd
    rcases resolveAux_deps_prior hdeps rank hrank tasks.length [] bs w h i hi t ht d hd
      with hc | hr
    · exact absurd hc (List.not_mem_nil d)
    · exact hr
  · rfl

/-- Witness for C1: the chain input instantiates the general statement. -/
theorem dependency_order_of_batches_witness :
    ∃ bs w, resolveDependencies [ta, tb, tc] = some (bs, w) ∧
      ∀ i (hi : i < bs.length), ∀ t ∈ bs[i], ∀ d ∈ t.dependencies,
        d ∈ ((bs.take i).flatten.map (fun u => u.id)) :=
  dependency_order_of_batches.1 [ta, tb, tc] chainRank (by decide) (by decide) (by decide)

/-- Claim C5: for every input with pairwise-distinct ids, whatever the
capability does per task, execute_batch returns a result mapping whose key
set is exactly the set of submitted task ids, with no duplicate keys —
every task, failed ones included, gets exactly one entry. -/
theorem execute_batch_complete_coverage :
    ∀ (env : String → TaskRun) (el : String → Nat) (tasks : List ParallelTask),
      (tasks.map (fun t => t.id)).Nodup →
      ∃ res w, executeBatch env el tasks = some (res, w) ∧
        (∀ s : String, s ∈ res.map Prod.fst ↔ s ∈ tasks.map (fun t => t.id)) ∧
        (res.map Prod.fst).Nodup := by
  intro env el tasks hids
  obtain ⟨⟨bs, w⟩, h⟩ :=
    resolveAux_isSome hids tasks.length [] List.nodup_nil (by simp) (by omega)
  have h' : resolveDependencies tasks = some (bs, w) := h
  refine ⟨executeBatches env el bs, w, by simp [executeBatch, h'], ?_, ?_⟩
  · intro s
    rw [executeBatches_keys]
    constructor
    · intro hs
      obtain ⟨u, hu, hui⟩ := List.mem_map.mp hs
      obtain ⟨b, hb, hub⟩ := List.mem_flatten.mp hu
      exact hui ▸ List.mem_map_of_mem (fun t => t.id)
        (resolveAux_batches_sub tasks.length [] bs w h b hb u hub)
    · intro hs
      obtain ⟨u, hu, hui⟩ := List.mem_map.mp hs
      rcases resolveAux_cover hids tasks.length [] bs w List.nodup_nil (by simp) h u hu
        with hc | hr
      · exact absurd hc (List.not_mem_nil _)
      · exact hui ▸ hr
  · rw [executeBatches_keys]
    have := resolveAux_nodup_keys hids tasks.length [] bs w List.nodup_nil h
    simpa using this

/-- Witness for C5: the chain input with an always-succeeding capability. -/
theorem execute_batch_complete_coverage_witness :
    ∃ res w, executeBatch env0 el0 [ta, tb, tc] = some (res, w) ∧
      (∀ s : String, s ∈ res.map Prod.fst ↔ s ∈ [ta, tb, tc].map (fun t => t.id)) ∧
      (res.map Prod.fst).Nodup :=
  execute_batch_complete_coverage env0 el0 [ta, tb, tc] (by decide)

/-- Claim C6: whenever no remaining task is ready (a cycle or a dependency
on a missing id) while unplaced tasks remain, the resolver terminates
immediately after emitting all remaining tasks as one forced batch, with
exactly one cycle warning printed; concretely, the two-task cycle a <-> b
lands in a single batch with one warning. -/
theorem cycle_breaking_forced_batch :
    (∀ (tasks : List ParallelTask) (completed : List String) (fuel : Nat),
        (tasks.map (fun t => t.id)).Nodup →
        completed.Nodup →
        (∀ i ∈ completed, i ∈ tasks.map (fun t => t.id)) →
        naturalReady tasks completed = [] →
        unplaced tasks completed ≠ [] →
        resolveAux tasks (fuel + 1) completed =
          some ([sortDesc (unplaced tasks completed)], 1)) ∧
    resolveDependencies [ca, cb] = some ([[ca, cb]], 1) := by
  constructor
  · intro tasks completed fuel hids hnd hsub hnat hun
    have hlt : completed.length < tasks.length := by
      obtain ⟨t0, ht0⟩ := List.exists_mem_of_ne_nil _ hun
      rw [mem_unplaced] at ht0
      by_contra hge
      exact ht0.2 (all_ids_completed_of_not_lt hids hnd hsub hge t0 ht0.1)
    have he : (naturalReady tasks completed).isEmpty = true := by
      rw [hnat]; rfl
    have hnb : nextBatch tasks completed = sortDesc (unplaced tasks completed) := by
      rw [nextBatch, if_pos he]
    have hall : ¬ (addIds completed (nextBatch tasks completed)).length < tasks.length := by
      have hsup : ∀ t ∈ tasks, t.id ∈ addIds completed (nextBatch tasks completed) := by
        intro t ht
        rw [mem_addIds]
        by_cases hc : t.id ∈ completed
        · exact Or.inl hc
        · refine Or.inr ⟨t, ?_, rfl⟩
          rw [hnb, mem_sortDesc, mem_unplaced]
          exact ⟨ht, hc⟩
      have hsub2 : (tasks.map (fun t => t.id)).toFinset ⊆
          (addIds completed (nextBatch tasks completed)).toFinset := by
        intro i hi
        rw [List.mem_toFinset] at hi ⊢
        obtain ⟨u, hu, hui⟩ := List.mem_map.mp hi
        exact hui ▸ hsup u hu
      have h2 := Finset.card_le_card hsub2
      have h3 : (tasks.map (fun t => t.id)).toFinset.card = tasks.length := by
        rw [List.toFinset_card_of_nodup hids, List.length_map]
      have h4 := List.toFinset_card_le (addIds completed (nextBatch tasks completed))
      omega
    rw [resolveAux_succ _ _ _ hlt, resolveAux_stop _ _ _ hall, hnb, he]
    simp
  · rfl

/-- Witness for C6: the two-task cycle forces a single batch and one
warning. -/
theorem cycle_breaking_forced_batch_witness :
    resolveAux [ca, cb] 2 [] = some ([sortDesc (unplaced [ca, cb] [])], 1) :=
  cycle_breaking_forced_batch.1 [ca, cb] [] 1 (by decide) (by decide) (by decide)
    (by decide) (by decide)

/-- Claim C8 counterexample: the empty task list has no dependency edges,
yet _resolve_dependencies produces zero batches, not one. -/
theorem no_dependency_single_batch_counterexample :
    resolveDependencies ([] : List ParallelTask) = some ([], 0) ∧
    (resolveDependencies ([] : List ParallelTask)).map (fun r => r.1.length) ≠ some 1 := by
  constructor
  · rfl
  · decide

/-- Claim C8 (amended): for every nonempty task list with pairwise-distinct
ids and no dependency edges, _resolve_dependencies produces exactly one
batch with no warning, containing all the tasks; the batch is ordered by
descending priority and tasks of equal priority keep their relative input
order. -/
theorem no_dependency_single_sorted_batch :
    ∀ tasks : List ParallelTask, tasks ≠ [] →
      (tasks.map (fun t => t.id)).Nodup →
      (∀ t ∈ tasks, t.dependencies = []) →
      resolveDependencies tasks = some ([sortDesc tasks], 0) ∧
      (sortDesc tasks).Perm tasks ∧
      (sortDesc tasks).Pairwise (fun a b => b.priority ≤ a.priority) ∧
      ∀ p : Int, (sortDesc tasks).filter (fun t => decide (t.priority = p)) =
        tasks.filter (fun t => decide (t.priority = p)) := by
  intro tasks hne hids hnodeps
  refine ⟨?_, sortDesc_perm tasks, sortDesc_pairwise tasks, sortDesc_filter_priority tasks⟩
  have hnat : naturalReady tasks [] = tasks := by
    rw [naturalReady]
    apply List.filter_eq_self.mpr
    intro t ht
    simp [hnodeps t ht]
  have hie : (naturalReady tasks []).isEmpty = false := by
    rw [hnat]
    cases tasks with
    | nil => exact absurd rfl hne
    | cons t ts => rfl
  have hnb : nextBatch tasks [] = sortDesc tasks := by
    rw [nextBatch, hie, hnat]
    rfl
  have hsn : ((sortDesc tasks).map (fun t => t.id)).Nodup :=
    (((sortDesc_perm tasks).map (fun t => t.id)).nodup_iff).mpr hids
  have hadd : addIds [] (sortDesc tasks) = (sortDesc tasks).map (fun t => t.id) := by
    rw [addIds_eq_append [] (sortDesc tasks) hsn (fun t _ => List.not_mem_nil t.id),
      List.nil_append]
  have hstop : ¬ (addIds [] (sortDesc tasks)).length < tasks.length := by
    rw [hadd, List.length_map, (sortDesc_perm tasks).length_eq]
    omega
  obtain ⟨n, hn⟩ : ∃ n, tasks.length = n + 1 := by
    cases tasks with
    | nil => exact absurd rfl hne
    | cons t ts => exact ⟨ts.length, rfl⟩
  show resolveAux tasks tasks.length [] = some ([sortDesc tasks], 0)
  rw [hn]
  have hlt0 : ([] : List String).length < tasks.length := by
    simp [hn]
  rw [resolveAux_succ tasks n [] hlt0, hnb, resolveAux_stop tasks n _ hstop, hie]
  simp

/-- Witness for C8: priorities 1, 3, 1 give the single batch [b8, a8, c8]:
descending priority, with the tie between a8 and c8 kept in input order. -/
theorem no_dependency_single_sorted_batch_witness :
    (resolveDependencies [w8a, w8b, w8c] = some ([sortDesc [w8a, w8b, w8c]], 0) ∧
      (sortDesc [w8a, w8b, w8c]).Perm [w8a, w8b, w8c] ∧
      (sortDesc [w8a, w8b, w8c]).Pairwise (fun a b => b.priority ≤ a.priority) ∧
      ∀ p : Int, (sortDesc [w8a, w8b, w8c]).filter (fun t => decide (t.priority = p)) =
        [w8a, w8b, w8c].filter (fun t => decide (t.priority = p))) ∧
    sortDesc [w8a, w8b, w8c] = [w8b, w8a, w8c] :=
  ⟨no_dependency_single_sorted_batch [w8a, w8b, w8c] (by decide) (by decide) (by decide),
    rfl⟩
